import Mathlib

/-!
Shallow embedding of the waver waveform-generation library
(src/wave.rs and src/waveform.rs).

Finite `f32` values are modelled as exact rationals (every finite `f32`
is a rational number); the transcendental functions `sinf`, `cosf`,
`asinf` and the constant `PI` are modelled over the reals.  Rust's `%`
on floats (`fmodf`, remainder of truncated division) is modelled exactly
by `fmodQ` on rationals and `rfmod` on reals.  `NumCast::from` for a
float-to-integer conversion follows `num_traits`: it succeeds exactly
when the value lies strictly between `MIN - 1` and `MAX + 1`, and it
truncates toward zero.
-/

namespace Waver

/-- Kind of the wave function (`WaveFunc` in src/wave.rs). -/
inductive WaveFunc where
  | Sine
  | Cosine
  | Square
  | Sawtooth
  | Triangle
deriving DecidableEq

/-- Truncation toward zero of a rational, as Rust's float `%` performs. -/
def truncQ (q : ℚ) : ℤ := if 0 ≤ q then ⌊q⌋ else ⌈q⌉

/-- Rust's `%` on `f32` (`fmodf`): the remainder of truncated division,
modelled exactly on rationals. -/
def fmodQ (x y : ℚ) : ℚ := x - y * truncQ (x / y)

/-- Truncation toward zero of a real number. -/
noncomputable def rtrunc (x : ℝ) : ℤ := if 0 ≤ x then ⌊x⌋ else ⌈x⌉

/-- Rust's `%` on `f32` over the reals (used by the sawtooth shape). -/
noncomputable def rfmod (x y : ℝ) : ℝ := x - y * rtrunc (x / y)

/-- `libm`'s `copysignf`: the magnitude of the first argument carrying the
sign of the second.  Reals have no signed zero, so a zero second argument
counts as positive (matching `sinf` at an angle that is exactly `+0.0`). -/
noncomputable def rcopysign (mag s : ℝ) : ℝ := if s < 0 then -|mag| else |mag|

/-- The resolved wave function (`WaveIterator::func` in src/wave.rs). -/
noncomputable def waveShape : WaveFunc → ℝ → ℝ
  | .Sine, x => Real.sin x
  | .Cosine, x => Real.cos x
  | .Square, x => rcopysign 1 (Real.sin x)
  | .Sawtooth, x => rfmod x (2 * Real.pi) / Real.pi - 1
  | .Triangle, x => 2 * Real.arcsin (Real.sin x) / Real.pi

/-- A sinusoidal wave (`Wave` in src/wave.rs); `f32` fields as rationals. -/
structure Wave where
  sample_rate : ℚ
  frequency : ℚ
  phase : ℚ
  amplitude : ℚ
  func : WaveFunc
deriving DecidableEq

/-- `Default for Wave`: every field zero except a unit amplitude. -/
def Wave.default : Wave := ⟨0, 0, 0, 1, .Sine⟩

/-- Iterator state over a `Wave` (`WaveIterator` in src/wave.rs). -/
structure WaveIterator where
  inner : Wave
  index : ℚ
deriving DecidableEq

/-- The state update of `WaveIterator::index_inc`: the index cycles after
one second of samples, `index = (index % sample_rate) + 1.0`. -/
def WaveIterator.step (it : WaveIterator) : WaveIterator :=
  { it with index := fmodQ it.index it.inner.sample_rate + 1 }

/-- The sample `WaveIterator::next` emits from the current state:
`amplitude * func(2.0 * PI * t * frequency + phase)` with the old index in
`t = index / sample_rate`. -/
noncomputable def WaveIterator.value (it : WaveIterator) : ℝ :=
  (it.inner.amplitude : ℝ) *
    waveShape it.inner.func
      (2 * Real.pi * ((it.index / it.inner.sample_rate : ℚ) : ℝ) * (it.inner.frequency : ℝ)
        + (it.inner.phase : ℝ))

/-- `WaveIterator::next`: always produces a sample and advances the index. -/
noncomputable def WaveIterator.next (it : WaveIterator) : ℝ × WaveIterator :=
  (it.value, it.step)

/-- `Wave::iter` / `IntoIterator for &Wave`: iteration starts at index `0.0`. -/
def Wave.iter (w : Wave) : WaveIterator := ⟨w, 0⟩

/-- The index a wave iterator holds after `n` steps. -/
def waveIdx (R : ℚ) : ℕ → ℚ
  | 0 => 0
  | n + 1 => fmodQ (waveIdx R n) R + 1

/-- The sample a `Wave`'s iterator emits at step `n`. -/
noncomputable def waveSample (w : Wave) (n : ℕ) : ℝ :=
  WaveIterator.value ⟨w, waveIdx w.sample_rate n⟩

/-- The angle fed to the wave function at step `n`. -/
noncomputable def waveAngle (w : Wave) (n : ℕ) : ℝ :=
  2 * Real.pi * ((waveIdx w.sample_rate n / w.sample_rate : ℚ) : ℝ) * (w.frequency : ℝ)
    + (w.phase : ℝ)

/-- An aggregate of wave components (`Waveform` in src/waveform.rs).  The
`BitDepth` type parameter is modelled by an explicit `IntType` argument to
the quantizing iterator. -/
structure Waveform where
  sample_rate : ℚ
  components : List Wave
deriving DecidableEq

/-- `Waveform::new`: an empty waveform. -/
def Waveform.new (sample_rate : ℚ) : Waveform := ⟨sample_rate, []⟩

/-- `Waveform::superpose`: push a copy of the wave whose sampling rate is
overwritten with the waveform's. -/
def Waveform.superpose (wf : Waveform) (w : Wave) : Waveform :=
  { wf with components := wf.components ++ [{ w with sample_rate := wf.sample_rate }] }

/-- `Waveform::with_wave`: `new` followed by `superpose`. -/
def Waveform.withWave (sample_rate : ℚ) (w : Wave) : Waveform :=
  (Waveform.new sample_rate).superpose w

/-- Round a rational to the nearest integer, ties to even (the default
IEEE-754 rounding attribute). -/
def roundTiesEven (s : ℚ) : ℤ :=
  if s - ⌊s⌋ < 1 / 2 then ⌊s⌋
  else if 1 / 2 < s - ⌊s⌋ then ⌊s⌋ + 1
  else if ⌊s⌋ % 2 = 0 then ⌊s⌋ else ⌊s⌋ + 1

/-- The IEEE-754 binary32 (`f32`) rounding of a positive rational in the
normal range: the significand is reduced to 24 bits by round-to-nearest,
ties-to-even.  Subnormal underflow and overflow to infinity cannot arise
on the values this development evaluates. -/
def roundF32pos (q : ℚ) : ℚ :=
  (roundTiesEven (q / 2 ^ (Int.log 2 q - 23)) : ℚ) * 2 ^ (Int.log 2 q - 23)

/-- The `f32` nearest to a nonnegative rational; 0 maps to 0. -/
def roundF32 (q : ℚ) : ℚ := if q ≤ 0 then 0 else roundF32pos q

/-- A `usize` length converted by `as f32`: exact below `2^24`, rounded to
24 significant bits above. -/
def f32ofNat (n : ℕ) : ℚ := roundF32 n

/-- `f32` division of nonnegative operands: the correctly rounded
quotient.  Division by zero yields infinity in `f32`, which has no
rational value; the model returns 0 there — `normalize_amplitudes`
computes that case only for an empty component list, where the map below
stores the quotient nowhere. -/
def f32div (x y : ℚ) : ℚ := roundF32 (x / y)

/-- `Waveform::normalize_amplitudes`: set every component's amplitude to
the `f32` quotient `1.0 / (components.len() as f32)`. -/
def Waveform.normalize_amplitudes (wf : Waveform) : Waveform :=
  { wf with
    components :=
      wf.components.map fun c =>
        { c with amplitude := f32div 1 (f32ofNat wf.components.length) } }

/-- A bounded integer target type, standing for the
`BitDepth: Bounded + NumCast + AsPrimitive<f32>` parameter. -/
structure IntType where
  min : ℤ
  max : ℤ

/-- `i8` as an `IntType`. -/
def IntType.i8 : IntType := ⟨-128, 127⟩

/-- `NumCast::from` applied to a float, following `num_traits`: the
conversion to the integer type succeeds exactly when the value lies
strictly between `MIN - 1` and `MAX + 1`, truncating toward zero. -/
noncomputable def numCast (T : IntType) (x : ℝ) : Option ℤ :=
  if (T.min : ℝ) - 1 < x ∧ x < (T.max : ℝ) + 1 then some (rtrunc x) else none

/-- Iterator state over a `Waveform` (`WaveformIterator` in
src/waveform.rs): one `WaveIterator` per component, kept in lock-step. -/
structure WaveformState where
  iters : List WaveIterator
deriving DecidableEq

/-- `Waveform::iter`: a fresh iterator for every component. -/
def Waveform.iterInit (wf : Waveform) : WaveformState :=
  ⟨wf.components.map Wave.iter⟩

/-- Advancing every component iterator by one step. -/
def WaveformState.stepAll (st : WaveformState) : WaveformState :=
  ⟨st.iters.map WaveIterator.step⟩

/-- `WaveformIterator::next`: pull the next sample out of every component
iterator (all of them advance), sum, scale by `BitDepth::max_value()` and
convert with `NumCast::from`. -/
noncomputable def WaveformState.next (T : IntType) (st : WaveformState) :
    Option ℤ × WaveformState :=
  let stepped := st.iters.map WaveIterator.next
  (numCast T ((stepped.map Prod.fst).sum * (T.max : ℝ)), ⟨stepped.map Prod.snd⟩)

/-- The waveform iterator state reached after `n` calls to `next`. -/
def waveformStateAt (wf : Waveform) (n : ℕ) : WaveformState :=
  WaveformState.stepAll^[n] wf.iterInit

/-- The item the waveform iterator produces at step `n`; `none` means the
sequence terminates there. -/
noncomputable def waveformValueAt (wf : Waveform) (T : IntType) (n : ℕ) : Option ℤ :=
  (WaveformState.next T (waveformStateAt wf n)).1

/-- The superposed sample sum at step `n`, scaled by the target maximum. -/
noncomputable def waveformScaledSum (wf : Waveform) (T : IntType) (n : ℕ) : ℝ :=
  ((wf.components.map fun c => waveSample c n).sum) * (T.max : ℝ)

/-! ### Arithmetic of the cyclic index -/

theorem truncQ_of_nonneg {q : ℚ} (h : 0 ≤ q) : truncQ q = ⌊q⌋ := if_pos h

theorem fmodQ_zero (y : ℚ) : fmodQ 0 y = 0 := by
  simp [fmodQ, truncQ]

theorem fmodQ_of_nonneg_of_lt {x y : ℚ} (hx : 0 ≤ x) (hxy : x < y) : fmodQ x y = x := by
  have hy : 0 < y := lt_of_le_of_lt hx hxy
  have h0 : (0 : ℚ) ≤ x / y := div_nonneg hx hy.le
  have h1 : x / y < 1 := (div_lt_one hy).2 hxy
  have : ⌊x / y⌋ = 0 := Int.floor_eq_zero_iff.2 ⟨h0, h1⟩
  simp [fmodQ, truncQ_of_nonneg h0, this]

theorem fmodQ_self {y : ℚ} (h : y ≠ 0) : fmodQ y y = 0 := by
  have : y / y = 1 := div_self h
  simp [fmodQ, truncQ, this]

theorem waveIdx_succ (R : ℕ) (hR : 0 < R) (n : ℕ) :
    waveIdx (R : ℚ) (n + 1) = ((n % R : ℕ) : ℚ) + 1 := by
  induction n with
  | zero =>
      simp [waveIdx, fmodQ_zero]
  | succ n ih =>
      have hmlt : n % R < R := Nat.mod_lt n hR
      show fmodQ (waveIdx (R : ℚ) (n + 1)) (R : ℚ) + 1 = _
      rw [ih]
      rcases lt_or_eq_of_le (Nat.succ_le_of_lt hmlt) with hlt | heq
      · -- the incremented index stays strictly below the sampling rate
        have hR1 : 1 < R := lt_of_le_of_lt (Nat.succ_le_of_lt (Nat.zero_lt_succ _)) hlt
        have hcast : ((n % R : ℕ) : ℚ) + 1 < (R : ℚ) := by
          have := (Nat.cast_lt (α := ℚ)).2 hlt
          push_cast at this ⊢
          linarith
        have hnn : (0 : ℚ) ≤ ((n % R : ℕ) : ℚ) + 1 := by positivity
        rw [fmodQ_of_nonneg_of_lt hnn hcast]
        have hmod : (n + 1) % R = n % R + 1 := by
          rw [Nat.add_mod, Nat.mod_eq_of_lt hR1, Nat.mod_eq_of_lt hlt]
        rw [hmod]
        push_cast
        ring
      · -- the incremented index reaches the sampling rate and wraps to zero
        have hcast : ((n % R : ℕ) : ℚ) + 1 = (R : ℚ) := by
          exact_mod_cast congrArg (fun k : ℕ => (k : ℚ)) heq
        have hRno : (R : ℚ) ≠ 0 := by
          exact_mod_cast Nat.pos_iff_ne_zero.1 hR
        rw [hcast, fmodQ_self hRno]
        have hmod : (n + 1) % R = 0 := by
          rw [Nat.succ_eq_add_one] at heq
          rcases Nat.lt_or_ge 1 R with hR1 | hR1
          · rw [Nat.add_mod, Nat.mod_eq_of_lt hR1, heq, Nat.mod_self]
          · have : R = 1 := le_antisymm hR1 hR
            simp [this, Nat.mod_one]
        rw [hmod]
        norm_num

theorem waveIdx_of_pos (R : ℕ) (hR : 0 < R) {n : ℕ} (hn : 1 ≤ n) :
    waveIdx (R : ℚ) n = (((n - 1) % R : ℕ) : ℚ) + 1 := by
  obtain ⟨k, rfl⟩ := Nat.exists_eq_add_of_le hn
  rw [Nat.add_comm 1 k]
  rw [waveIdx_succ R hR k]
  simp

theorem waveIdx_add_period (R : ℕ) (hR : 0 < R) {i : ℕ} (hi : 1 ≤ i) :
    waveIdx (R : ℚ) (i + R) = waveIdx (R : ℚ) i := by
  rw [waveIdx_of_pos R hR (le_trans hi (Nat.le_add_right i R)), waveIdx_of_pos R hR hi]
  have h : i + R - 1 = (i - 1) + R := by omega
  rw [h, Nat.add_mod_right]

theorem waveSample_eq (w : Wave) (n : ℕ) :
    waveSample w n = (w.amplitude : ℝ) * waveShape w.func (waveAngle w n) := rfl

theorem waveSample_period (R : ℕ) (hR : 0 < R) (w : Wave) (hw : w.sample_rate = (R : ℚ))
    {i : ℕ} (hi : 1 ≤ i) : waveSample w (i + R) = waveSample w i := by
  simp only [waveSample, hw, waveIdx_add_period R hR hi]

/-! ### The waveform iterator, step by step -/

theorem waveformStateAt_eq (wf : Waveform) (n : ℕ) :
    waveformStateAt wf n = ⟨wf.components.map fun c => ⟨c, waveIdx c.sample_rate n⟩⟩ := by
  induction n with
  | zero => simp [waveformStateAt, Waveform.iterInit, Wave.iter, waveIdx]
  | succ n ih =>
      rw [waveformStateAt, Function.iterate_succ_apply', ← waveformStateAt, ih]
      simp [WaveformState.stepAll, List.map_map, Function.comp, WaveIterator.step, waveIdx]

theorem WaveformState.next_snd (T : IntType) (st : WaveformState) :
    (WaveformState.next T st).2 = st.stepAll := by
  simp [WaveformState.next, WaveformState.stepAll, List.map_map, Function.comp,
    WaveIterator.next]

theorem waveformValueAt_eq (wf : Waveform) (T : IntType) (n : ℕ) :
    waveformValueAt wf T n = numCast T (waveformScaledSum wf T n) := by
  rw [waveformValueAt, waveformStateAt_eq]
  simp only [WaveformState.next, waveformScaledSum, List.map_map, waveSample]
  rfl

/-! ### Range of the wave functions -/

theorem waveShape_mem_Icc (f : WaveFunc) (x : ℝ) (hf : f = WaveFunc.Sawtooth → 0 ≤ x) :
    waveShape f x ∈ Set.Icc (-1 : ℝ) 1 := by
  have hπ := Real.pi_pos
  cases f with
  | Sine => exact ⟨Real.neg_one_le_sin x, Real.sin_le_one x⟩
  | Cosine => exact ⟨Real.neg_one_le_cos x, Real.cos_le_one x⟩
  | Square =>
      simp only [waveShape, rcopysign, Set.mem_Icc]
      split <;> norm_num
  | Sawtooth =>
      have hx : 0 ≤ x := hf rfl
      have h2π : (0 : ℝ) < 2 * Real.pi := by linarith
      have hq : 0 ≤ x / (2 * Real.pi) := div_nonneg hx h2π.le
      have hxx : 2 * Real.pi * (x / (2 * Real.pi)) = x := by field_simp
      have hfl : (⌊x / (2 * Real.pi)⌋ : ℝ) ≤ x / (2 * Real.pi) := Int.floor_le _
      have hfl2 : x / (2 * Real.pi) < (⌊x / (2 * Real.pi)⌋ : ℝ) + 1 :=
        Int.lt_floor_add_one _
      have h0 : 0 ≤ rfmod x (2 * Real.pi) := by
        rw [rfmod, rtrunc, if_pos hq]
        have hmul : 2 * Real.pi * (⌊x / (2 * Real.pi)⌋ : ℝ) ≤
            2 * Real.pi * (x / (2 * Real.pi)) := mul_le_mul_of_nonneg_left hfl h2π.le
        linarith
      have h1 : rfmod x (2 * Real.pi) < 2 * Real.pi := by
        rw [rfmod, rtrunc, if_pos hq]
        have hmul : 2 * Real.pi * (x / (2 * Real.pi)) <
            2 * Real.pi * ((⌊x / (2 * Real.pi)⌋ : ℝ) + 1) := (mul_lt_mul_left h2π).2 hfl2
        linarith
      simp only [waveShape, Set.mem_Icc]
      constructor
      · have : 0 ≤ rfmod x (2 * Real.pi) / Real.pi := div_nonneg h0 hπ.le
        linarith
      · have : rfmod x (2 * Real.pi) / Real.pi < 2 := (div_lt_iff₀ hπ).2 (by linarith)
        linarith
  | Triangle =>
      have h1 : Real.arcsin (Real.sin x) ≤ Real.pi / 2 := Real.arcsin_le_pi_div_two _
      have h2 : -(Real.pi / 2) ≤ Real.arcsin (Real.sin x) := Real.neg_pi_div_two_le_arcsin _
      simp only [waveShape, Set.mem_Icc]
      constructor
      · rw [le_div_iff₀ hπ]
        linarith
      · rw [div_le_one hπ]
        linarith

theorem waveSample_mem_Icc (w : Wave) (n : ℕ) (h0 : 0 ≤ w.amplitude) (h1 : w.amplitude ≤ 1)
    (hang : w.func = WaveFunc.Sawtooth → 0 ≤ waveAngle w n) :
    waveSample w n ∈ Set.Icc (-1 : ℝ) 1 := by
  have hs := waveShape_mem_Icc w.func (waveAngle w n) hang
  rw [Set.mem_Icc] at hs ⊢
  rw [waveSample_eq]
  have ha0 : (0 : ℝ) ≤ (w.amplitude : ℝ) := by exact_mod_cast h0
  have ha1 : (w.amplitude : ℝ) ≤ 1 := by exact_mod_cast h1
  have hu := mul_le_mul_of_nonneg_left hs.2 ha0
  have hl := mul_le_mul_of_nonneg_left hs.1 ha0
  constructor <;> linarith

/-! ### The float-to-integer conversion -/

theorem rtrunc_intCast (z : ℤ) : rtrunc (z : ℝ) = z := by
  rw [rtrunc]
  split <;> simp

theorem numCast_of_mem (T : IntType) (x : ℝ) (hlo : (T.min : ℝ) - 1 < x)
    (hhi : x < (T.max : ℝ) + 1) : numCast T x = some (rtrunc x) := if_pos ⟨hlo, hhi⟩

theorem numCast_eq_none_of_rtrunc_out (T : IntType) (x : ℝ) (hmin : T.min ≤ 0)
    (hmax : 0 ≤ T.max) (h : rtrunc x < T.min ∨ T.max < rtrunc x) : numCast T x = none := by
  rw [numCast, if_neg]
  rintro ⟨hlo, hhi⟩
  rcases h with h | h
  · rcases le_or_lt 0 x with hx | hx
    · rw [rtrunc, if_pos hx] at h
      have : (0 : ℤ) ≤ ⌊x⌋ := Int.floor_nonneg.2 hx
      omega
    · rw [rtrunc, if_neg (not_le.2 hx)] at h
      have h1 : ⌈x⌉ + 1 ≤ T.min := by omega
      have h2 : x ≤ (⌈x⌉ : ℝ) := Int.le_ceil x
      have hc : ((⌈x⌉ : ℤ) : ℝ) + 1 ≤ (T.min : ℝ) := by exact_mod_cast h1
      linarith
  · rcases le_or_lt 0 x with hx | hx
    · rw [rtrunc, if_pos hx] at h
      have h1 : T.max + 1 ≤ ⌊x⌋ := by omega
      have h2 : (⌊x⌋ : ℝ) ≤ x := Int.floor_le x
      have hc : (T.max : ℝ) + 1 ≤ ((⌊x⌋ : ℤ) : ℝ) := by exact_mod_cast h1
      linarith
    · rw [rtrunc, if_neg (not_le.2 hx)] at h
      have : ⌈x⌉ ≤ 0 := Int.ceil_le.2 (by exact_mod_cast hx.le)
      omega

theorem superpose_foldl_rate (R : ℚ) (ws : List Wave) :
    ∀ wf : Waveform, wf.sample_rate = R → (∀ c ∈ wf.components, c.sample_rate = R) →
      ∀ c ∈ (ws.foldl Waveform.superpose wf).components, c.sample_rate = R := by
  induction ws with
  | nil => exact fun wf _ hinv c hc => hinv c hc
  | cons w ws ih =>
      intro wf hrate hinv c hc
      refine ih (wf.superpose w) hrate ?_ c hc
      intro d hd
      rw [Waveform.superpose] at hd
      simp only [List.mem_append, List.mem_singleton] at hd
      rcases hd with hd | hd
      · exact hinv d hd
      · rw [hd]
        exact hrate

theorem waveSample_const_cosine (R a : ℚ) (n : ℕ) :
    waveSample (Wave.mk R 0 0 a WaveFunc.Cosine) n = (a : ℝ) := by
  simp [waveSample, WaveIterator.value, waveShape]

theorem scaledSum_const_cosine (R a : ℚ) (T : IntType) (n : ℕ) :
    waveformScaledSum (Waveform.withWave R (Wave.mk R 0 0 a WaveFunc.Cosine)) T n
      = (a : ℝ) * (T.max : ℝ) := by
  simp [waveformScaledSum, Waveform.withWave, Waveform.new, Waveform.superpose,
    waveSample_const_cosine]

theorem angle_quarter_zero :
    waveAngle (Wave.mk 4 1 0 2 WaveFunc.Cosine) 0 = 0 := by
  rw [waveAngle]
  show 2 * Real.pi * (((0 : ℚ) / (4 : ℚ) : ℚ) : ℝ) * ((1 : ℚ) : ℝ) + ((0 : ℚ) : ℝ) = 0
  push_cast
  ring

theorem angle_quarter_one :
    waveAngle (Wave.mk 4 1 0 2 WaveFunc.Cosine) 1 = Real.pi / 2 := by
  rw [waveAngle]
  have hidx : waveIdx (Wave.mk 4 1 0 2 WaveFunc.Cosine).sample_rate 1 = 1 := by
    show waveIdx (4 : ℚ) 1 = 1
    simp [waveIdx, fmodQ_zero]
  rw [hidx]
  show 2 * Real.pi * (((1 : ℚ) / (4 : ℚ) : ℚ) : ℝ) * ((1 : ℚ) : ℝ) + ((0 : ℚ) : ℝ)
    = Real.pi / 2
  push_cast
  ring

theorem sample_quarter_cosine_zero :
    waveSample (Wave.mk 4 1 0 2 WaveFunc.Cosine) 0 = 2 := by
  rw [waveSample_eq, angle_quarter_zero]
  norm_num [waveShape]

theorem sample_quarter_cosine_one :
    waveSample (Wave.mk 4 1 0 2 WaveFunc.Cosine) 1 = 0 := by
  rw [waveSample_eq, angle_quarter_one]
  simp [waveShape, Real.cos_pi_div_two]

theorem scaledSum_quarter_zero :
    waveformScaledSum (Waveform.withWave 4 (Wave.mk 4 1 0 2 WaveFunc.Cosine))
      IntType.i8 0 = 254 := by
  simp [waveformScaledSum, Waveform.withWave, Waveform.new, Waveform.superpose,
    sample_quarter_cosine_zero, IntType.i8]
  norm_num

theorem scaledSum_quarter_one :
    waveformScaledSum (Waveform.withWave 4 (Wave.mk 4 1 0 2 WaveFunc.Cosine))
      IntType.i8 1 = 0 := by
  simp [waveformScaledSum, Waveform.withWave, Waveform.new, Waveform.superpose,
    sample_quarter_cosine_one, IntType.i8]

theorem int_log_eq_of_zpow {b : ℕ} (hb : 1 < b) {r : ℚ} (hr : 0 < r) {z : ℤ}
    (h1 : (b : ℚ) ^ z ≤ r) (h2 : r < (b : ℚ) ^ (z + 1)) : Int.log b r = z := by
  have hle := (Int.zpow_le_iff_le_log hb hr).1 h1
  have hlt := (Int.lt_zpow_iff_log_lt hb hr).1 h2
  omega

theorem roundTiesEven_intCast (z : ℤ) : roundTiesEven (z : ℚ) = z := by
  rw [roundTiesEven, Int.floor_intCast]
  norm_num

theorem f32ofNat_two : f32ofNat 2 = 2 := by
  have hlog : Int.log 2 ((2 : ℕ) : ℚ) = 1 :=
    int_log_eq_of_zpow (by norm_num) (by norm_num) (by norm_num) (by norm_num)
  rw [f32ofNat, roundF32, if_neg (by norm_num), roundF32pos, hlog]
  have hs : ((2 : ℕ) : ℚ) / 2 ^ ((1 : ℤ) - 23) = ((8388608 : ℤ) : ℚ) := by
    norm_num
  rw [hs, roundTiesEven_intCast]
  norm_num

theorem f32ofNat_three : f32ofNat 3 = 3 := by
  have hlog : Int.log 2 ((3 : ℕ) : ℚ) = 1 :=
    int_log_eq_of_zpow (by norm_num) (by norm_num) (by norm_num) (by norm_num)
  rw [f32ofNat, roundF32, if_neg (by norm_num), roundF32pos, hlog]
  have hs : ((3 : ℕ) : ℚ) / 2 ^ ((1 : ℤ) - 23) = ((12582912 : ℤ) : ℚ) := by
    norm_num
  rw [hs, roundTiesEven_intCast]
  norm_num

theorem ratio_two : f32div 1 (f32ofNat 2) = 1 / 2 := by
  rw [f32ofNat_two, f32div]
  have hlog : Int.log 2 ((1 : ℚ) / 2) = -1 :=
    int_log_eq_of_zpow (by norm_num) (by norm_num) (by norm_num) (by norm_num)
  rw [roundF32, if_neg (by norm_num), roundF32pos, hlog]
  have hs : (1 : ℚ) / 2 / 2 ^ ((-1 : ℤ) - 23) = ((8388608 : ℤ) : ℚ) := by
    norm_num
  rw [hs, roundTiesEven_intCast]
  norm_num

theorem ratio_three : f32div 1 (f32ofNat 3) = 11184811 / 33554432 := by
  rw [f32ofNat_three, f32div]
  have hlog : Int.log 2 ((1 : ℚ) / 3) = -2 :=
    int_log_eq_of_zpow (by norm_num) (by norm_num) (by norm_num) (by norm_num)
  rw [roundF32, if_neg (by norm_num), roundF32pos, hlog]
  have hs : (1 : ℚ) / 3 / 2 ^ ((-2 : ℤ) - 23) = 33554432 / 3 := by
    norm_num
  rw [hs]
  have hf : ⌊(33554432 : ℚ) / 3⌋ = 11184810 := by
    rw [Int.floor_eq_iff]
    norm_num
  have hm : roundTiesEven ((33554432 : ℚ) / 3) = 11184811 := by
    rw [roundTiesEven, hf, if_neg (by norm_num), if_pos (by norm_num)]
    norm_num
  rw [hm]
  norm_num

/-! ### The claims -/

/-- C4: a waveform with zero components produces, for every target integer
type (whose range contains 0) and at every step, the value 0; the sequence
is infinite and never terminates. -/
theorem c4_empty_waveform_zero (T : IntType) (hmin : T.min ≤ 0) (hmax : 0 ≤ T.max)
    (R : ℚ) (n : ℕ) : waveformValueAt (Waveform.new R) T n = some 0 := by
  have hminR : (T.min : ℝ) ≤ 0 := by exact_mod_cast hmin
  have hmaxR : (0 : ℝ) ≤ (T.max : ℝ) := by exact_mod_cast hmax
  rw [waveformValueAt_eq]
  have hsum : waveformScaledSum (Waveform.new R) T n = 0 := by
    simp [waveformScaledSum, Waveform.new]
  rw [hsum, numCast_of_mem T 0 (by linarith) (by linarith)]
  norm_num [rtrunc]

/-- C4 witness: the empty waveform over `i8` yields 0 at step 0. -/
theorem c4_witness :
    IntType.i8.min ≤ 0 ∧ 0 ≤ IntType.i8.max ∧
      waveformValueAt (Waveform.new 1) IntType.i8 0 = some 0 :=
  ⟨by decide, by decide, c4_empty_waveform_zero IntType.i8 (by decide) (by decide) 1 0⟩

/-- C5: for a wave whose sampling rate is a positive integer `R`, the
sample at step `i + R` equals the sample at step `i`, for every `i ≥ 1`:
one full second of samples repeats exactly. -/
theorem c5_periodicity (R : ℕ) (hR : 0 < R) (w : Wave) (hw : w.sample_rate = (R : ℚ))
    (i : ℕ) (hi : 1 ≤ i) : waveSample w (i + R) = waveSample w i :=
  waveSample_period R hR w hw hi

/-- C5 witness: a concrete sine wave at rate 2 repeats from step 1 to 3. -/
theorem c5_witness :
    0 < 2 ∧ (Wave.mk 2 1 0 1 WaveFunc.Sine).sample_rate = ((2 : ℕ) : ℚ) ∧ 1 ≤ 1 ∧
      waveSample (Wave.mk 2 1 0 1 WaveFunc.Sine) (1 + 2)
        = waveSample (Wave.mk 2 1 0 1 WaveFunc.Sine) 1 :=
  ⟨by decide, by norm_num, by decide,
    c5_periodicity 2 (by decide) (Wave.mk 2 1 0 1 WaveFunc.Sine) (by norm_num) 1 (by decide)⟩

/-- C6: a waveform built from a single wave (carrying the same sampling
rate) produces at every step exactly that wave's own sample multiplied by
the target type's maximum value and converted to the integer type. -/
theorem c6_single_wave (w : Wave) (T : IntType) (n : ℕ) (R : ℚ)
    (hw : w.sample_rate = R) :
    waveformValueAt (Waveform.withWave R w) T n
      = numCast T (waveSample w n * (T.max : ℝ)) := by
  subst hw
  obtain ⟨sr, f, p, a, fn⟩ := w
  rw [waveformValueAt_eq]
  simp [waveformScaledSum, Waveform.withWave, Waveform.new, Waveform.superpose]

/-- C6 witness: a single constant cosine wave over `i8` at step 0. -/
theorem c6_witness :
    (Wave.mk 2 0 0 1 WaveFunc.Cosine).sample_rate = (2 : ℚ) ∧
      waveformValueAt (Waveform.withWave 2 (Wave.mk 2 0 0 1 WaveFunc.Cosine)) IntType.i8 0
        = numCast IntType.i8
            (waveSample (Wave.mk 2 0 0 1 WaveFunc.Cosine) 0 * (IntType.i8.max : ℝ)) :=
  ⟨rfl, c6_single_wave (Wave.mk 2 0 0 1 WaveFunc.Cosine) IntType.i8 0 2 rfl⟩

/-- C7 is false as stated: normalizing three components stores the `f32`
rounding of `1.0/3` — the dyadic rational `11184811/33554432 ≈ 0.33333334`
— in every component, and that value is not exactly `1/3`. -/
theorem c7_counterexample :
    ¬ ∀ c ∈ (Waveform.mk 1 [Wave.default, Wave.default,
          Wave.default]).normalize_amplitudes.components,
        c.amplitude = 1 / ((Waveform.mk 1 [Wave.default, Wave.default,
          Wave.default]).components.length : ℚ) := by
  intro h
  have hmem : (⟨0, 0, 0, f32div 1 (f32ofNat 3), WaveFunc.Sine⟩ : Wave)
      ∈ (Waveform.mk 1 [Wave.default, Wave.default,
          Wave.default]).normalize_amplitudes.components := by
    rw [Waveform.normalize_amplitudes]
    simp [Wave.default]
  have h2 : f32div 1 (f32ofNat 3) = 1 / ((3 : ℕ) : ℚ) := h _ hmem
  rw [ratio_three] at h2
  norm_num at h2

/-- C7 amended: after `normalize_amplitudes` on `N ≥ 1` components, every
component's amplitude equals the `f32` quotient `1.0 / N` — one common
value for all components, equal to `1/N` exactly whenever `1/N` is
representable in `f32` (e.g. `N` a power of two) — while no other field
of any component changes and the waveform's rate is untouched. -/
theorem c7_amended (wf : Waveform) (_hN : 1 ≤ wf.components.length) :
    (∀ c ∈ wf.normalize_amplitudes.components,
        c.amplitude = f32div 1 (f32ofNat wf.components.length)) ∧
      wf.normalize_amplitudes.components.map
          (fun c => (c.sample_rate, c.frequency, c.phase, c.func))
        = wf.components.map (fun c => (c.sample_rate, c.frequency, c.phase, c.func)) ∧
      wf.normalize_amplitudes.sample_rate = wf.sample_rate := by
  refine ⟨?_, ?_, rfl⟩
  · intro c hc
    rw [Waveform.normalize_amplitudes] at hc
    simp only [List.mem_map] at hc
    obtain ⟨d, hd, rfl⟩ := hc
    rfl
  · rw [Waveform.normalize_amplitudes]
    simp only [List.map_map]
    rfl

/-- C7 witness: normalizing a two-component waveform stores the `f32`
quotient `1.0/2` — which is exactly `1/2` — in both components and keeps
the other fields. -/
theorem c7_witness :
    1 ≤ (Waveform.mk 1 [Wave.mk 1 2 0 1 WaveFunc.Sine,
          Wave.mk 1 3 0 (1/2) WaveFunc.Cosine]).components.length ∧
      f32div 1 (f32ofNat (Waveform.mk 1 [Wave.mk 1 2 0 1 WaveFunc.Sine,
          Wave.mk 1 3 0 (1/2) WaveFunc.Cosine]).components.length) = 1 / 2 ∧
      ((∀ c ∈ (Waveform.mk 1 [Wave.mk 1 2 0 1 WaveFunc.Sine,
            Wave.mk 1 3 0 (1/2) WaveFunc.Cosine]).normalize_amplitudes.components,
          c.amplitude = f32div 1 (f32ofNat (Waveform.mk 1
            [Wave.mk 1 2 0 1 WaveFunc.Sine,
              Wave.mk 1 3 0 (1/2) WaveFunc.Cosine]).components.length)) ∧
        (Waveform.mk 1 [Wave.mk 1 2 0 1 WaveFunc.Sine,
            Wave.mk 1 3 0 (1/2) WaveFunc.Cosine]).normalize_amplitudes.components.map
            (fun c => (c.sample_rate, c.frequency, c.phase, c.func))
          = (Waveform.mk 1 [Wave.mk 1 2 0 1 WaveFunc.Sine,
              Wave.mk 1 3 0 (1/2) WaveFunc.Cosine]).components.map
              (fun c => (c.sample_rate, c.frequency, c.phase, c.func)) ∧
        (Waveform.mk 1 [Wave.mk 1 2 0 1 WaveFunc.Sine,
            Wave.mk 1 3 0 (1/2) WaveFunc.Cosine]).normalize_amplitudes.sample_rate
          = (Waveform.mk 1 [Wave.mk 1 2 0 1 WaveFunc.Sine,
              Wave.mk 1 3 0 (1/2) WaveFunc.Cosine]).sample_rate) :=
  ⟨by decide, ratio_two,
    c7_amended (Waveform.mk 1 [Wave.mk 1 2 0 1 WaveFunc.Sine,
      Wave.mk 1 3 0 (1/2) WaveFunc.Cosine]) (by decide)⟩

/-- C8: `superpose` appends exactly one component — the argument with its
sampling rate overwritten by the waveform's — keeping every previously
stored component and the waveform's rate unchanged; consequently every
component of a waveform built by appending waves to `Waveform::new`
carries the waveform's sampling rate. -/
theorem c8_superpose (wf : Waveform) (w : Wave) (R : ℚ) (ws : List Wave) :
    (wf.superpose w).components
        = wf.components ++ [{ w with sample_rate := wf.sample_rate }] ∧
      (wf.superpose w).sample_rate = wf.sample_rate ∧
      ∀ c ∈ (ws.foldl Waveform.superpose (Waveform.new R)).components,
        c.sample_rate = R := by
  refine ⟨rfl, rfl, ?_⟩
  refine superpose_foldl_rate R ws (Waveform.new R) rfl ?_
  intro c hc
  simp [Waveform.new] at hc

/-- C8 witness: appending one wave to an empty waveform at rate 3 stores a
component whose rate is 3. -/
theorem c8_witness : (Wave.mk 3 1 1 1 WaveFunc.Cosine).sample_rate = 3 :=
  (c8_superpose (Waveform.mk 2 []) Wave.default 3
      [Wave.mk 7 1 1 1 WaveFunc.Cosine]).2.2
    (Wave.mk 3 1 1 1 WaveFunc.Cosine) (by decide)

/-- C10: `normalize_amplitudes` on a waveform with zero components is
total (no panic: the float division `1.0/0` is computed but its result is
never stored) and leaves the waveform completely unchanged. -/
theorem c10_normalize_empty (wf : Waveform) (h : wf.components = []) :
    wf.normalize_amplitudes = wf := by
  obtain ⟨R, comps⟩ := wf
  simp only [Waveform.mk.injEq] at h ⊢
  subst h
  simp [Waveform.normalize_amplitudes]

/-- C10 witness: the empty waveform at rate 5 is untouched. -/
theorem c10_witness :
    (Waveform.mk 5 []).components = [] ∧
      (Waveform.mk 5 []).normalize_amplitudes = Waveform.mk 5 [] :=
  ⟨rfl, c10_normalize_empty (Waveform.mk 5 []) rfl⟩

/-- C2 is false as stated: at sampling rate 2 and step 2 the cyclic index
is 2, not `2 mod 2 = 0`, and the time value `t = idx / sample_rate = 1`
does not lie in `[0, 1)`. -/
theorem c2_counterexample :
    waveIdx (2 : ℚ) 2 ≠ ((2 % 2 : ℕ) : ℚ) ∧ ¬ waveIdx (2 : ℚ) 2 / (2 : ℚ) < 1 := by
  have h2 : waveIdx (2 : ℚ) 2 = 2 := by
    have h := waveIdx_succ 2 (by norm_num) 1
    norm_num at h
    exact h
  rw [h2]
  constructor <;> norm_num

/-- C2 amended: the index starts at 0; from step 1 on it equals
`((n - 1) mod R) + 1`, cycling through `1, …, R` and reaching `R` itself
(rather than wrapping to 0) at positive multiples of `R`; the time value
`t = idx / R` lies in the half-open interval `(0, 1]` for every step
`n ≥ 1`. -/
theorem c2_amended (R : ℕ) (hR : 0 < R) (n : ℕ) (hn : 1 ≤ n) :
    waveIdx (R : ℚ) 0 = 0 ∧
      waveIdx (R : ℚ) n = (((n - 1) % R : ℕ) : ℚ) + 1 ∧
      0 < waveIdx (R : ℚ) n / (R : ℚ) ∧ waveIdx (R : ℚ) n / (R : ℚ) ≤ 1 := by
  have hRQ : (0 : ℚ) < (R : ℚ) := by exact_mod_cast hR
  have hidx := waveIdx_of_pos R hR hn
  refine ⟨rfl, hidx, ?_, ?_⟩
  · rw [hidx]
    apply div_pos ?_ hRQ
    positivity
  · rw [hidx, div_le_one hRQ]
    have hm : (n - 1) % R < R := Nat.mod_lt _ hR
    exact_mod_cast Nat.succ_le_of_lt hm

/-- C2 witness: at rate 2 and step 1 the index is `(0 mod 2) + 1 = 1` and
`t = 1/2` lies in `(0, 1]`. -/
theorem c2_witness :
    0 < 2 ∧ 1 ≤ 1 ∧
      (waveIdx ((2 : ℕ) : ℚ) 0 = 0 ∧
        waveIdx ((2 : ℕ) : ℚ) 1 = (((1 - 1) % 2 : ℕ) : ℚ) + 1 ∧
        0 < waveIdx ((2 : ℕ) : ℚ) 1 / ((2 : ℕ) : ℚ) ∧
        waveIdx ((2 : ℕ) : ℚ) 1 / ((2 : ℕ) : ℚ) ≤ 1) :=
  ⟨by decide, by decide, c2_amended 2 (by decide) 1 (by decide)⟩

/-- C3 is false as stated: the sawtooth shape maps the angle `-π` to `-2`,
outside `[-1, 1]` — Rust's `%` keeps the sign of its dividend, so negative
angles (negative frequency or phase) drive the sawtooth down to near -3. -/
theorem c3_counterexample :
    waveShape WaveFunc.Sawtooth (-Real.pi) ∉ Set.Icc (-1 : ℝ) 1 := by
  have hπ := Real.pi_pos
  have hval : waveShape WaveFunc.Sawtooth (-Real.pi) = -2 := by
    have hdiv : -Real.pi / (2 * Real.pi) = -(1 / 2 : ℝ) := by
      field_simp
      ring
    have htr : rtrunc (-Real.pi / (2 * Real.pi)) = 0 := by
      rw [hdiv, rtrunc, if_neg (by norm_num)]
      rw [Int.ceil_eq_zero_iff]
      constructor <;> norm_num
    simp only [waveShape, rfmod, htr, Int.cast_zero, mul_zero, sub_zero]
    rw [neg_div, div_self (ne_of_gt hπ)]
    ring
  rw [hval]
  norm_num

/-- C3 amended: sine, cosine, square and triangle map every angle into
`[-1, 1]`; the sawtooth does so for every nonnegative angle; accordingly a
wave whose amplitude lies in `[0, 1]` emits samples in `[-1, 1]`, with the
angle-nonnegativity proviso needed only for the sawtooth shape. -/
theorem c3_amended :
    (∀ (f : WaveFunc) (x : ℝ), (f = WaveFunc.Sawtooth → 0 ≤ x) →
        waveShape f x ∈ Set.Icc (-1 : ℝ) 1) ∧
      ∀ (w : Wave) (n : ℕ), 0 ≤ w.amplitude → w.amplitude ≤ 1 →
        (w.func = WaveFunc.Sawtooth → 0 ≤ waveAngle w n) →
        waveSample w n ∈ Set.Icc (-1 : ℝ) 1 :=
  ⟨waveShape_mem_Icc, fun w n h0 h1 hang => waveSample_mem_Icc w n h0 h1 hang⟩

/-- C3 witness: the sine shape at angle 0, and a unit-amplitude sine wave
at step 0, both land in `[-1, 1]`. -/
theorem c3_witness :
    waveShape WaveFunc.Sine 0 ∈ Set.Icc (-1 : ℝ) 1 ∧
      waveSample (Wave.mk 1 0 0 1 WaveFunc.Sine) 0 ∈ Set.Icc (-1 : ℝ) 1 :=
  ⟨c3_amended.1 WaveFunc.Sine 0 (by simp),
    c3_amended.2 (Wave.mk 1 0 0 1 WaveFunc.Sine) 0 (by decide) (by decide) (by simp)⟩

/-- C1 is false as stated: with target `i8` and a single constant wave of
amplitude `255/254`, the scaled sum at step 0 is `127.5` — outside `i8`'s
representable range `[-128, 127]` — yet the iterator still yields an item
(`127`, by truncation) instead of terminating. -/
theorem c1_counterexample :
    waveformScaledSum (Waveform.withWave 2 (Wave.mk 2 0 0 (255/254) WaveFunc.Cosine))
        IntType.i8 0 ∉ Set.Icc ((IntType.i8.min : ℝ)) ((IntType.i8.max : ℝ)) ∧
      waveformValueAt (Waveform.withWave 2 (Wave.mk 2 0 0 (255/254) WaveFunc.Cosine))
        IntType.i8 0 = some 127 := by
  have hsum : waveformScaledSum
      (Waveform.withWave 2 (Wave.mk 2 0 0 (255/254) WaveFunc.Cosine)) IntType.i8 0
      = 255 / 2 := by
    rw [scaledSum_const_cosine]
    push_cast [IntType.i8]
    norm_num
  constructor
  · rw [hsum]
    simp only [IntType.i8, Set.mem_Icc]
    push_cast
    norm_num
  · rw [waveformValueAt_eq, hsum,
      numCast_of_mem _ _ (by norm_num [IntType.i8]) (by norm_num [IntType.i8])]
    have htr : rtrunc (255 / 2 : ℝ) = 127 := by
      rw [rtrunc, if_pos (by norm_num), Int.floor_eq_iff]
      norm_num
    rw [htr]

/-- C1 amended: the sequence stops at a step exactly when the scaled sum,
truncated toward zero (which is how `NumCast` converts), falls outside
the representable range; sums strictly between `max` and `max + 1` (or
between `min - 1` and `min`) still convert by truncation. Stated in the
failure direction the claim asserts: a truncation out of range means the
iterator yields no item at that step (no wrapped or saturated value). -/
theorem c1_amended (wf : Waveform) (T : IntType) (n : ℕ) (hmin : T.min ≤ 0)
    (hmax : 0 ≤ T.max)
    (hout : rtrunc (waveformScaledSum wf T n) < T.min ∨
      T.max < rtrunc (waveformScaledSum wf T n)) :
    waveformValueAt wf T n = none := by
  rw [waveformValueAt_eq]
  exact numCast_eq_none_of_rtrunc_out T _ hmin hmax hout

/-- C1 witness: a constant wave of amplitude 2 over `i8` scales to 254 at
step 0, truncation 254 exceeds the maximum 127, and the iterator stops. -/
theorem c1_witness :
    (IntType.i8.min ≤ 0 ∧ 0 ≤ IntType.i8.max ∧
        (rtrunc (waveformScaledSum (Waveform.withWave 3 (Wave.mk 3 0 0 2 WaveFunc.Cosine))
              IntType.i8 0) < IntType.i8.min ∨
          IntType.i8.max < rtrunc (waveformScaledSum
              (Waveform.withWave 3 (Wave.mk 3 0 0 2 WaveFunc.Cosine)) IntType.i8 0))) ∧
      waveformValueAt (Waveform.withWave 3 (Wave.mk 3 0 0 2 WaveFunc.Cosine))
        IntType.i8 0 = none := by
  have hsum : waveformScaledSum (Waveform.withWave 3 (Wave.mk 3 0 0 2 WaveFunc.Cosine))
      IntType.i8 0 = 254 := by
    rw [scaledSum_const_cosine]
    push_cast [IntType.i8]
    norm_num
  have hout : IntType.i8.max < rtrunc (waveformScaledSum
      (Waveform.withWave 3 (Wave.mk 3 0 0 2 WaveFunc.Cosine)) IntType.i8 0) := by
    have hfl : (⌊(254 : ℝ)⌋ : ℤ) = 254 := by
      rw [Int.floor_eq_iff]
      norm_num
    rw [hsum, rtrunc, if_pos (by norm_num), hfl]
    decide
  exact ⟨⟨by decide, by decide, Or.inr hout⟩,
    c1_amended (Waveform.withWave 3 (Wave.mk 3 0 0 2 WaveFunc.Cosine)) IntType.i8 0
      (by decide) (by decide) (Or.inr hout)⟩

/-- C9: termination is not permanent: `next` advances every component
iterator whether or not the conversion succeeds (the whole sum is consumed
before the cast), so a step that yields `none` is followed by the normal
next step — and a waveform exists whose sequence yields `none` at one step
and an item again at the very next one. -/
theorem c9_resumption :
    (∀ (T : IntType) (st : WaveformState), (WaveformState.next T st).2 = st.stepAll) ∧
      ∃ (T : IntType) (wf : Waveform) (n : ℕ),
        waveformValueAt wf T n = none ∧ (waveformValueAt wf T (n + 1)).isSome := by
  refine ⟨WaveformState.next_snd, IntType.i8,
    Waveform.withWave 4 (Wave.mk 4 1 0 2 WaveFunc.Cosine), 0, ?_, ?_⟩
  · rw [waveformValueAt_eq, scaledSum_quarter_zero, numCast, if_neg]
    rintro ⟨-, h2⟩
    norm_num [IntType.i8] at h2
  · rw [waveformValueAt_eq, scaledSum_quarter_one,
      numCast_of_mem _ _ (by norm_num [IntType.i8]) (by norm_num [IntType.i8])]
    simp

end Waver
